import Mathlib

/-!
# CPPWatcher: the polling directory watcher of `Watcher.hpp`

A shallow embedding of `class Watcher` (src/Watcher.hpp).

* The shared map `m_times` is an association list in iteration order.
* The filesystem and the vendored `FileUtilities` helpers are a record of
  functions (`FileUtilities`), one field per collaborator the source calls.
* Callbacks are recorded as a list of `Event`s in invocation order.
* Detached threads are recorded as the list of directories they watch.
-/

set_option linter.unusedVariables false

namespace CPPWatcher

/-! ## Data model and operations -/

/-- The vendored `FileUtilities::ParsedPath`: an opaque path value used as the
key of `m_times` and as the payload of the callbacks. -/
structure ParsedPath where
  canonical : String
  deriving DecidableEq, Repr

/-- The vendored `FileUtilities::TimeType`: a last-modification marker. -/
abbrev TimeType := Nat

/-- A `std::filesystem::directory_entry` as the source observes it:
`content.path().string()`, `content.is_regular_file()`, `content.is_directory()`. -/
structure DirEntry where
  path : String
  is_regular_file : Bool
  is_directory : Bool
  deriving DecidableEq, Repr

/-- The collaborators `Watcher.hpp` calls, at one state of the filesystem.
`fromString` is the implicit `std::string` to `ParsedPath` conversion of
lines 37 and 42 (`m_times[content.path().string()]`); `fromStringABS` is the
construction `ParsedPath{s, ParsedPath::ABS{}}` of lines 46 and 70. -/
structure FileUtilities where
  DirContents : ParsedPath → List DirEntry
  DirContentsRecursive : ParsedPath → List DirEntry
  FileExists : ParsedPath → Bool
  GetModifyTime : DirEntry → TimeType
  last_write_time : DirEntry → TimeType
  fromString : String → ParsedPath
  fromStringABS : String → ParsedPath

/-- One callback invocation: `m_onCreate(p)`, `m_onModify(p)`, `m_onDelete(p)`. -/
inductive Event where
  | onCreate (p : ParsedPath)
  | onModify (p : ParsedPath)
  | onDelete (p : ParsedPath)
  deriving DecidableEq, Repr

/-- The path a callback was invoked with. -/
def Event.path : Event → ParsedPath
  | .onCreate p => p
  | .onModify p => p
  | .onDelete p => p

/-- Whether the callback is `m_onDelete`. -/
def Event.isDelete : Event → Bool
  | .onDelete _ => true
  | _ => false

/-- The callbacks of an event sequence that were invoked with path `p`, in order. -/
def eventsFor (p : ParsedPath) (evs : List Event) : List Event :=
  evs.filter (fun e => decide (e.path = p))

/-- The map `m_times` (`std::unordered_map<ParsedPath, TimeType>`), as the list
of its entries in iteration order. -/
abbrev Store := List (ParsedPath × TimeType)

/-- The keys of the map, in iteration order. -/
def Store.keys (s : Store) : List ParsedPath := s.map Prod.fst

/-- `m_times.find(p)`: the stored timestamp, `none` for `m_times.end()`. -/
def Store.find : Store → ParsedPath → Option TimeType
  | [], _ => none
  | (k, t) :: rest, p => if k = p then some t else Store.find rest p

/-- `m_times[p] = v`: overwrite the entry of `p`, or insert a new one. Where a
new entry lands in the iteration order is unspecified for `std::unordered_map`;
here it goes last. -/
def Store.assign : Store → ParsedPath → TimeType → Store
  | [], p, v => [(p, v)]
  | (k, t) :: rest, p, v =>
    if k = p then (k, v) :: rest else (k, t) :: Store.assign rest p v

/-- The delete pass (lines 55-65): walk `m_times` from `begin()` to `end()`;
an entry whose key does not exist gets `m_onDelete` and is erased. -/
def deletePass (fu : FileUtilities) : Store → Store × List Event
  | [] => ([], [])
  | (k, t) :: rest =>
    let r := deletePass fu rest
    if fu.FileExists k then ((k, t) :: r.1, r.2)
    else (r.1, Event.onDelete k :: r.2)

/-- The body of the loop of lines 67-84 for one directory entry. -/
def createModifyStep (fu : FileUtilities) (content : DirEntry) (s : Store) :
    Store × List Event :=
  if content.is_regular_file then
    let lastModifyTime := fu.GetModifyTime content
    let pp := fu.fromStringABS content.path
    match s.find pp with
    | none => (s.assign pp lastModifyTime, [Event.onCreate pp])
    | some stored =>
      if stored ≠ lastModifyTime then (s.assign pp lastModifyTime, [Event.onModify pp])
      else (s, [])
  else (s, [])

/-- The create/modify pass (lines 67-84) over a directory listing. -/
def createModifyPass (fu : FileUtilities) : List DirEntry → Store → Store × List Event
  | [], s => (s, [])
  | content :: rest, s =>
    let r := createModifyStep fu content s
    let q := createModifyPass fu rest r.1
    (q.1, r.2 ++ q.2)

/-- One iteration of the loop body of a Poller watching `toWatch` (lines 55-84):
the delete pass, then the create/modify pass over `DirContents(toWatch)`. -/
def pollCycle (fu : FileUtilities) (toWatch : ParsedPath) (s : Store) :
    Store × List Event :=
  let d := deletePass fu s
  let c := createModifyPass fu (fu.DirContents toWatch) d.1
  (c.1, d.2 ++ c.2)

/-- The keys the create/modify pass looks up for a listing: one per regular file. -/
def listedKeys (fu : FileUtilities) (listing : List DirEntry) : List ParsedPath :=
  (listing.filter (fun c => c.is_regular_file)).map (fun c => fu.fromStringABS c.path)

/-- The enum `Depth : bool` with `SHALLOW = false`, `RECURSIVE = true`. -/
inductive Depth where
  | SHALLOW
  | RECURSIVE
  deriving DecidableEq, Repr

/-- The value of `m_depth` as the condition of `if (m_depth)` (line 34). -/
def Depth.toBool : Depth → Bool
  | .SHALLOW => false
  | .RECURSIVE => true

/-- The data members of a `Watcher` object the operations read or write.
`m_delay` is in milliseconds. `threads` records the detached threads spawned so
far by the `toWatch` each one captured, in spawn order. -/
structure Watcher where
  m_running : Bool
  m_times : Store
  m_basePath : ParsedPath
  m_depth : Depth
  m_delay : Nat
  threads : List ParsedPath

/-- The method `setDelay` (lines 102-104). -/
def Watcher.setDelay (w : Watcher) (delay : Nat) : Watcher :=
  { w with m_delay := delay }

/-- The method `getDelay` (lines 106-108). -/
def Watcher.getDelay (w : Watcher) : Nat := w.m_delay

/-- The snapshot loops of lines 35-37 and 40-42: every regular file of the
listing is stored under the key converted implicitly from its path string. -/
def snapshot (fu : FileUtilities) : List DirEntry → Store → Store
  | [], s => s
  | content :: rest, s =>
    if content.is_regular_file then
      snapshot fu rest (s.assign (fu.fromString content.path) (fu.last_write_time content))
    else snapshot fu rest s

/-- The loop of lines 44-88 over `DirContents(path)`: a directory entry makes
the recursive call `start(sub, false)` and continues; every other entry
spawns one detached thread whose `toWatch` is `path`. `recurse` is that
recursive call. -/
def spawnLoop (recurse : Watcher → ParsedPath → Option Watcher) (fu : FileUtilities)
    (path : ParsedPath) : List DirEntry → Watcher → Option Watcher
  | [], w => some w
  | content :: rest, w =>
    if content.is_directory then
      match recurse w (fu.fromStringABS content.path) with
      | none => none
      | some w1 => spawnLoop recurse fu path rest w1
    else spawnLoop recurse fu path rest { w with threads := w.threads ++ [path] }

/-- The method `start` (lines 32-89). The first argument bounds the nesting of
the recursive calls; `none` means the bound was reached. -/
def Watcher.start : Nat → FileUtilities → Watcher → ParsedPath → Bool → Option Watcher
  | 0, _, _, _, _ => none
  | fuel + 1, fu, w, path, alwaysCreateBaseDirectory =>
    let w1 := { w with m_running := true }
    let listing :=
      if w1.m_depth.toBool then fu.DirContentsRecursive path else fu.DirContents path
    let w2 := { w1 with m_times := snapshot fu listing w1.m_times }
    spawnLoop (fun w3 sub => Watcher.start fuel fu w3 sub false) fu path
      (fu.DirContents path) w2

/-- The constructor (lines 22-30): the members are initialised and `start` is
called when `startImmediatly` is set. -/
def Watcher.construct (fuel : Nat) (fu : FileUtilities) (basePath : ParsedPath) (depth : Depth)
    (alwaysCreateBaseDirectory : Bool) (startImmediatly : Bool) (delay : Nat) :
    Option Watcher :=
  let w : Watcher :=
    { m_running := false, m_times := [], m_basePath := basePath, m_depth := depth,
      m_delay := delay, threads := [] }
  if startImmediatly then Watcher.start fuel fu w basePath alwaysCreateBaseDirectory
  else some w

/-- The method `stop` (lines 91-100). `clearDelay` is only the duration of the
`sleep_for` of line 95. The detached threads are not joined. -/
def Watcher.stop (w : Watcher) : Watcher :=
  let clearDelay := w.getDelay * 2
  let w1 := w.setDelay 1
  let w2 := { w1 with m_running := false }
  { w2 with m_times := [] }

/-- Every thread of the list runs one iteration of its loop body, one after
the other, on the shared `m_times`. -/
def runPollers (fu : FileUtilities) : List ParsedPath → Store → Store × List Event
  | [], s => (s, [])
  | toWatch :: rest, s =>
    let r := pollCycle fu toWatch s
    let q := runPollers fu rest r.1
    (q.1, r.2 ++ q.2)

/-- The callbacks the pass owes a regular file with key `pp` and listed
timestamp `t`, given what the store holds for `pp` when the pass begins. -/
def expectedEvents (s : Store) (pp : ParsedPath) (t : TimeType) : List Event :=
  match s.find pp with
  | none => [Event.onCreate pp]
  | some stored => if stored ≠ t then [Event.onModify pp] else []

/-- A sample state of the collaborators: directory `D` lists the regular files
`D/a.txt` (timestamp 5) and `D/b.txt` (timestamp 7) and the directory `D/sub`;
`D/old.txt` does not exist. -/
def sampleFU : FileUtilities where
  DirContents := fun d =>
    if d = ⟨"D"⟩ then
      [⟨"D/a.txt", true, false⟩, ⟨"D/sub", false, true⟩, ⟨"D/b.txt", true, false⟩]
    else []
  DirContentsRecursive := fun d =>
    if d = ⟨"D"⟩ then
      [⟨"D/a.txt", true, false⟩, ⟨"D/sub", false, true⟩, ⟨"D/b.txt", true, false⟩]
    else []
  FileExists := fun p => decide (p ∈ [⟨"D"⟩, ⟨"D/a.txt"⟩, ⟨"D/b.txt"⟩, ⟨"D/sub"⟩])
  GetModifyTime := fun c => if c.path = "D/a.txt" then 5 else 7
  last_write_time := fun c => if c.path = "D/a.txt" then 5 else 7
  fromString := fun s => ⟨s⟩
  fromStringABS := fun s => ⟨s⟩

/-- A sample store: `D/b.txt` with an outdated timestamp and the vanished `D/old.txt`. -/
def sampleStore : Store := [(⟨"D/old.txt"⟩, 1), (⟨"D/b.txt"⟩, 6)]

/-- The later state keeps every key and every thread of the earlier one. -/
def Extends (w w1 : Watcher) : Prop :=
  (∀ k ∈ w.m_times.keys, k ∈ w1.m_times.keys) ∧ (∀ d ∈ w.threads, d ∈ w1.threads)

/-- A Watcher as the constructor leaves it when `startImmediatly` is clear,
with the default delay of 1000 ms. -/
def freshWatcher (basePath : ParsedPath) (depth : Depth) : Watcher :=
  { m_running := false, m_times := [], m_basePath := basePath, m_depth := depth,
    m_delay := 1000, threads := [] }

/-- Where a Poller thread stands in `while(m_running) { sleep_for; delete pass;
create/modify pass }` (lines 52-85). -/
inductive PollerPC where
  | testFlag
  | sleeping
  | deleting
  | creating
  | exited
  deriving DecidableEq, Repr

/-- One detached thread: the captured `toWatch`, its program point, and (for
the record only) the time of the run-flag test that admitted its current cycle. -/
structure Poller where
  toWatch : ParsedPath
  pc : PollerPC
  admittedAt : Option Nat

/-- One callback invocation as the record keeps it: the callback, the thread
that made it, the time, the value of `m_running` at that time, and the time of
the run-flag test that admitted the cycle it belongs to. -/
structure Invocation where
  event : Event
  poller : Nat
  time : Nat
  running : Bool
  admittedAt : Option Nat
  deriving DecidableEq, Repr

/-- Where the caller of `stop()` stands (lines 91-100). -/
inductive StopPC where
  | idle
  | read (clearDelay : Nat)
  | delaySet (clearDelay : Nat)
  | sleeping (clearDelay : Nat)
  | woken
  | returned
  deriving DecidableEq, Repr

/-- The Watcher, its threads and the filesystem at one moment. `now`,
`clearedAt` and `log` only record what happened. -/
structure System where
  fu : FileUtilities
  w : Watcher
  pollers : Nat → Poller
  stopPC : StopPC
  now : Nat
  clearedAt : Option Nat
  log : List Invocation

/-- Who moves next: Poller thread `i`, the caller of `stop()`, or the
filesystem (which becomes `fu`). -/
inductive Label where
  | poller (i : Nat)
  | stop
  | env (fu : FileUtilities)

/-- The callbacks `evs` as invoked now by thread `i`. -/
def System.record (sys : System) (i : Nat) (evs : List Event) : List Invocation :=
  evs.map (fun e => ⟨e, i, sys.now, sys.w.m_running, (sys.pollers i).admittedAt⟩)

/-- Thread `i` with its program point moved to `pc`. -/
def System.moveTo (sys : System) (i : Nat) (pc : PollerPC) : Nat → Poller :=
  Function.update sys.pollers i
    { toWatch := (sys.pollers i).toWatch, pc := pc, admittedAt := (sys.pollers i).admittedAt }

/-- One step of Poller thread `i`: the test of `m_running` (line 52), the
`sleep_for` (line 53), the delete pass (lines 55-65) or the create/modify pass
(lines 67-84). -/
def System.pollerStep (sys : System) (i : Nat) : System :=
  match (sys.pollers i).pc with
  | .testFlag =>
    if sys.w.m_running then
      let admitted : Poller :=
        { toWatch := (sys.pollers i).toWatch, pc := .sleeping, admittedAt := some sys.now }
      { sys with pollers := Function.update sys.pollers i admitted }
    else { sys with pollers := sys.moveTo i .exited }
  | .sleeping => { sys with pollers := sys.moveTo i .deleting }
  | .deleting =>
    let r := deletePass sys.fu sys.w.m_times
    { sys with
      w := { sys.w with m_times := r.1 }
      pollers := sys.moveTo i .creating
      log := sys.log ++ sys.record i r.2 }
  | .creating =>
    let r := createModifyPass sys.fu (sys.fu.DirContents (sys.pollers i).toWatch) sys.w.m_times
    { sys with
      w := { sys.w with m_times := r.1 }
      pollers := sys.moveTo i .testFlag
      log := sys.log ++ sys.record i r.2 }
  | .exited => sys

/-- One statement of `stop()` (lines 92, 93, 94, 95, 98 in turn). -/
def System.stopStep (sys : System) : System :=
  match sys.stopPC with
  | .idle => { sys with stopPC := .read (sys.w.getDelay * 2) }
  | .read clearDelay => { sys with w := sys.w.setDelay 1, stopPC := .delaySet clearDelay }
  | .delaySet clearDelay =>
    { sys with
      w := { sys.w with m_running := false }
      stopPC := .sleeping clearDelay
      clearedAt := some sys.now }
  | .sleeping _ => { sys with stopPC := .woken }
  | .woken => { sys with w := { sys.w with m_times := [] }, stopPC := .returned }
  | .returned => sys

/-- One step of the system; the clock advances. -/
def System.step (sys : System) (l : Label) : System :=
  let next :=
    match l with
    | .poller i => sys.pollerStep i
    | .stop => sys.stopStep
    | .env fu => { sys with fu := fu }
  { next with now := next.now + 1 }

/-- Whether the caller of `stop()` has not yet executed `m_running = false`. -/
def StopPC.beforeClear : StopPC → Bool
  | .idle => true
  | .read _ => true
  | .delaySet _ => true
  | _ => false

/-- What every reachable state of a started Watcher satisfies. -/
structure System.Inv (sys : System) : Prop where
  flag : sys.clearedAt = none → sys.w.m_running = true
  cleared : ∀ tc, sys.clearedAt = some tc → sys.w.m_running = false ∧ tc < sys.now
  stopPast : sys.stopPC.beforeClear = true → sys.clearedAt = none
  admitted : ∀ i t, (sys.pollers i).admittedAt = some t →
    t < sys.now ∧ ∀ tc, sys.clearedAt = some tc → t < tc
  inCycle : ∀ i, (sys.pollers i).pc = PollerPC.sleeping ∨
    (sys.pollers i).pc = PollerPC.deleting ∨ (sys.pollers i).pc = PollerPC.creating →
    (sys.pollers i).admittedAt ≠ none
  logged : ∀ e ∈ sys.log, e.running = false →
    ∃ t tc, e.admittedAt = some t ∧ sys.clearedAt = some tc ∧ t < tc ∧ tc < e.time ∧
      (sys.pollers e.poller).admittedAt = some t

/-- A tree with a subdirectory: `R` lists the regular file `R/f` and the
directory `R/S`; `R/S` lists the regular file `R/S/g`. -/
def nestedFU : FileUtilities where
  DirContents := fun d =>
    if d = ⟨"R"⟩ then [⟨"R/f", true, false⟩, ⟨"R/S", false, true⟩]
    else if d = ⟨"R/S"⟩ then [⟨"R/S/g", true, false⟩]
    else []
  DirContentsRecursive := fun d =>
    if d = ⟨"R"⟩ then [⟨"R/f", true, false⟩, ⟨"R/S", false, true⟩, ⟨"R/S/g", true, false⟩]
    else if d = ⟨"R/S"⟩ then [⟨"R/S/g", true, false⟩]
    else []
  FileExists := fun p => decide (p ∈ [⟨"R"⟩, ⟨"R/f"⟩, ⟨"R/S"⟩, ⟨"R/S/g"⟩])
  GetModifyTime := fun c => if c.path = "R/f" then 1 else 2
  last_write_time := fun c => if c.path = "R/f" then 1 else 2
  fromString := fun s => ⟨s⟩
  fromStringABS := fun s => ⟨s⟩

/-- An existing, empty directory `E`. -/
def emptyDirFU : FileUtilities where
  DirContents := fun _ => []
  DirContentsRecursive := fun _ => []
  FileExists := fun p => decide (p = ⟨"E"⟩)
  GetModifyTime := fun _ => 3
  last_write_time := fun _ => 3
  fromString := fun s => ⟨s⟩
  fromStringABS := fun s => ⟨s⟩

/-- The directory `E` after the regular file `E/a.txt` was created in it. -/
def createdFU : FileUtilities where
  DirContents := fun d => if d = ⟨"E"⟩ then [⟨"E/a.txt", true, false⟩] else []
  DirContentsRecursive := fun d => if d = ⟨"E"⟩ then [⟨"E/a.txt", true, false⟩] else []
  FileExists := fun p => decide (p ∈ [⟨"E"⟩, ⟨"E/a.txt"⟩])
  GetModifyTime := fun _ => 3
  last_write_time := fun _ => 3
  fromString := fun s => ⟨s⟩
  fromStringABS := fun s => ⟨s⟩

/-- The sample directory `D` after the regular file `D/new.txt` was created in it. -/
def sampleCreatedFU : FileUtilities where
  DirContents := fun d =>
    if d = ⟨"D"⟩ then
      [⟨"D/a.txt", true, false⟩, ⟨"D/sub", false, true⟩, ⟨"D/b.txt", true, false⟩,
       ⟨"D/new.txt", true, false⟩]
    else []
  DirContentsRecursive := fun d =>
    if d = ⟨"D"⟩ then
      [⟨"D/a.txt", true, false⟩, ⟨"D/sub", false, true⟩, ⟨"D/b.txt", true, false⟩,
       ⟨"D/new.txt", true, false⟩]
    else []
  FileExists := fun p =>
    decide (p ∈ [⟨"D"⟩, ⟨"D/a.txt"⟩, ⟨"D/b.txt"⟩, ⟨"D/sub"⟩, ⟨"D/new.txt"⟩])
  GetModifyTime := fun c => if c.path = "D/a.txt" then 5 else 7
  last_write_time := fun c => if c.path = "D/a.txt" then 5 else 7
  fromString := fun s => ⟨s⟩
  fromStringABS := fun s => ⟨s⟩

/-- A missing root: nothing exists and every listing is empty. -/
def missingRootFU : FileUtilities where
  DirContents := fun _ => []
  DirContentsRecursive := fun _ => []
  FileExists := fun _ => false
  GetModifyTime := fun _ => 0
  last_write_time := fun _ => 0
  fromString := fun s => ⟨s⟩
  fromStringABS := fun s => ⟨s⟩

/-- What `start` leaves behind, for inspection: the keys of `m_times`, the
watched directory of every spawned thread, and the callbacks invoked when
every spawned thread then runs one poll cycle on the filesystem `after`. -/
def startThenPoll (fuel : Nat) (before after : FileUtilities) (depth : Depth)
    (path : ParsedPath) (alwaysCreateBaseDirectory : Bool) :
    Option (List ParsedPath × List ParsedPath × List Event) :=
  (Watcher.start fuel before (freshWatcher path depth) path alwaysCreateBaseDirectory).map
    (fun w1 => (w1.m_times.keys, w1.threads, (runPollers after w1.threads w1.m_times).2))

/-! ## The map `m_times` -/

theorem Store.find_assign_same (s : Store) (p : ParsedPath) (v : TimeType) :
    (s.assign p v).find p = some v := by
  induction s with
  | nil => simp [Store.assign, Store.find]
  | cons kv rest ih =>
    obtain ⟨k, t⟩ := kv
    by_cases h : k = p
    · simp [Store.assign, Store.find, h]
    · simp [Store.assign, Store.find, h, ih]

theorem Store.find_assign_other (s : Store) (p q : ParsedPath) (v : TimeType) (h : q ≠ p) :
    (s.assign p v).find q = s.find q := by
  induction s with
  | nil =>
    have h2 : ¬ p = q := fun e => h e.symm
    simp [Store.assign, Store.find, h2]
  | cons kv rest ih =>
    obtain ⟨k, t⟩ := kv
    by_cases hk : k = p
    · subst hk
      have h2 : ¬ k = q := fun e => h e.symm
      simp [Store.assign, Store.find, h2]
    · by_cases hq : k = q
      · subst hq
        simp [Store.assign, Store.find, hk]
      · simp [Store.assign, Store.find, hk, hq, ih]

theorem Store.keys_assign_of_mem (s : Store) (p : ParsedPath) (v : TimeType)
    (h : p ∈ s.keys) : (s.assign p v).keys = s.keys := by
  induction s with
  | nil => simp [Store.keys] at h
  | cons kv rest ih =>
    obtain ⟨k, u⟩ := kv
    by_cases hk : k = p
    · simp [Store.assign, Store.keys, hk]
    · have h2 : p ∈ Store.keys rest := by
        simp only [Store.keys, List.map_cons, List.mem_cons] at h
        rcases h with h | h
        · exact absurd h.symm hk
        · exact h
      have := ih h2
      simp only [Store.keys] at this
      simp [Store.assign, Store.keys, hk, this]

theorem Store.keys_assign_of_not_mem (s : Store) (p : ParsedPath) (v : TimeType)
    (h : p ∉ s.keys) : (s.assign p v).keys = s.keys ++ [p] := by
  induction s with
  | nil => simp [Store.keys, Store.assign]
  | cons kv rest ih =>
    obtain ⟨k, u⟩ := kv
    simp only [Store.keys, List.map_cons, List.mem_cons, not_or] at h
    have hk : ¬ k = p := fun e => h.1 e.symm
    have := ih h.2
    simp only [Store.keys] at this
    simp [Store.assign, Store.keys, hk, this]

theorem Store.mem_keys_assign (s : Store) (p q : ParsedPath) (v : TimeType) :
    q ∈ (s.assign p v).keys ↔ q ∈ s.keys ∨ q = p := by
  by_cases h : p ∈ s.keys
  · rw [Store.keys_assign_of_mem s p v h]
    constructor
    · exact Or.inl
    · rintro (h2 | h2)
      · exact h2
      · exact h2 ▸ h
  · rw [Store.keys_assign_of_not_mem s p v h]
    simp

theorem Store.nodup_keys_assign (s : Store) (p : ParsedPath) (v : TimeType)
    (hs : s.keys.Nodup) : (s.assign p v).keys.Nodup := by
  by_cases h : p ∈ s.keys
  · rw [Store.keys_assign_of_mem s p v h]; exact hs
  · rw [Store.keys_assign_of_not_mem s p v h]
    exact List.Nodup.append hs (List.nodup_singleton p) (by simpa using h)

/-! ## Callback sequences -/

theorem eventsFor_nil (p : ParsedPath) : eventsFor p [] = [] := rfl

theorem eventsFor_cons (p : ParsedPath) (e : Event) (evs : List Event) :
    eventsFor p (e :: evs) = if e.path = p then e :: eventsFor p evs else eventsFor p evs := by
  by_cases h : e.path = p <;> simp [eventsFor, h]

theorem eventsFor_append (p : ParsedPath) (xs ys : List Event) :
    eventsFor p (xs ++ ys) = eventsFor p xs ++ eventsFor p ys := by
  simp [eventsFor]

/-! ## The delete pass -/

theorem deletePass_store (fu : FileUtilities) (s : Store) :
    (deletePass fu s).1 = s.filter (fun kv => fu.FileExists kv.1) := by
  induction s with
  | nil => rfl
  | cons kv rest ih =>
    obtain ⟨k, t⟩ := kv
    cases h : fu.FileExists k <;> simp [deletePass, h, ih]

theorem deletePass_events (fu : FileUtilities) (s : Store) :
    (deletePass fu s).2 =
      (s.filter (fun kv => !fu.FileExists kv.1)).map (fun kv => Event.onDelete kv.1) := by
  induction s with
  | nil => rfl
  | cons kv rest ih =>
    obtain ⟨k, t⟩ := kv
    cases h : fu.FileExists k <;> simp [deletePass, h, ih]

theorem deletePass_eventsFor_of_not_mem (fu : FileUtilities) (s : Store) (p : ParsedPath)
    (h : p ∉ s.keys) : eventsFor p (deletePass fu s).2 = [] := by
  induction s with
  | nil => rfl
  | cons kv rest ih =>
    obtain ⟨k, t⟩ := kv
    simp only [Store.keys, List.map_cons, List.mem_cons, not_or] at h
    have hk : ¬ k = p := fun e => h.1 e.symm
    have ih2 := ih h.2
    cases hx : fu.FileExists k
    · simp [deletePass, hx, eventsFor_cons, Event.path, hk, ih2]
    · simpa [deletePass, hx] using ih2

theorem deletePass_find (fu : FileUtilities) (s : Store) (p : ParsedPath) :
    (deletePass fu s).1.find p = if fu.FileExists p then s.find p else none := by
  induction s with
  | nil => simp [deletePass, Store.find]
  | cons kv rest ih =>
    obtain ⟨k, t⟩ := kv
    by_cases hk : k = p
    · subst hk
      cases hx : fu.FileExists k
      · simp [deletePass, hx, ih]
      · simp [deletePass, hx, Store.find]
    · cases hx : fu.FileExists k
      · simp [deletePass, hx, ih, Store.find, hk]
      · simp [deletePass, hx, ih, Store.find, hk]

theorem deletePass_id (fu : FileUtilities) (s : Store)
    (h : ∀ k ∈ s.keys, fu.FileExists k = true) : deletePass fu s = (s, []) := by
  induction s with
  | nil => rfl
  | cons kv rest ih =>
    obtain ⟨k, t⟩ := kv
    have hk : fu.FileExists k = true := h k (by simp [Store.keys])
    have hr : ∀ k ∈ Store.keys rest, fu.FileExists k = true := by
      intro q hq
      exact h q (by simp only [Store.keys, List.map_cons, List.mem_cons]; exact Or.inr hq)
    simp [deletePass, hk, ih hr]

theorem deletePass_keys_exist (fu : FileUtilities) (s : Store) :
    ∀ k ∈ (deletePass fu s).1.keys, fu.FileExists k = true := by
  intro k hk
  rw [deletePass_store] at hk
  simp only [Store.keys, List.mem_map, List.mem_filter] at hk
  obtain ⟨kv, ⟨_, h2⟩, h3⟩ := hk
  rw [← h3]; exact h2

/-- C2. Delete pass of one poll cycle, for a map `m_times` (pairwise distinct
keys): the callbacks invoked with a path `p` are exactly one `onDelete p` when
`p` is a key of the starting store and does not exist, and none otherwise (so
no other callback and no other path); the store afterwards is the starting
store restricted to the keys that exist, each with its timestamp unchanged. -/
theorem deletePass_spec (fu : FileUtilities) (s : Store) (hs : s.keys.Nodup) :
    (∀ p, eventsFor p (deletePass fu s).2 =
        if p ∈ s.keys ∧ fu.FileExists p = false then [Event.onDelete p] else []) ∧
    (deletePass fu s).1 = s.filter (fun kv => fu.FileExists kv.1) ∧
    (∀ p, (deletePass fu s).1.find p = if fu.FileExists p then s.find p else none) := by
  refine ⟨?_, deletePass_store fu s, deletePass_find fu s⟩
  intro p
  induction s with
  | nil => simp [deletePass, eventsFor, Store.keys]
  | cons kv rest ih =>
    obtain ⟨k, t⟩ := kv
    have hn : k ∉ Store.keys rest ∧ (Store.keys rest).Nodup := by
      simpa [Store.keys] using hs
    have ih2 := ih hn.2
    by_cases hk : k = p
    · subst hk
      have h0 := deletePass_eventsFor_of_not_mem fu rest k hn.1
      cases hx : fu.FileExists k
      · simp [deletePass, hx, eventsFor_cons, Event.path, Store.keys, h0]
      · simp [deletePass, hx, h0]
    · have hk2 : ¬ p = k := fun e => hk e.symm
      have hm : (p ∈ Store.keys ((k, t) :: rest)) ↔ p ∈ Store.keys rest := by
        simp [Store.keys, hk2]
      cases hx : fu.FileExists k
      · simp only [deletePass, hx, hm]
        simp [eventsFor_cons, Event.path, hk, ih2]
      · simp only [deletePass, hx, hm]
        simpa using ih2

/-! ## The create/modify pass -/

theorem createModifyStep_not_regular (fu : FileUtilities) (c : DirEntry) (s : Store)
    (h : c.is_regular_file = false) : createModifyStep fu c s = (s, []) := by
  simp [createModifyStep, h]

theorem createModifyStep_same (fu : FileUtilities) (c : DirEntry) (s : Store)
    (h : s.find (fu.fromStringABS c.path) = some (fu.GetModifyTime c)) :
    createModifyStep fu c s = (s, []) := by
  cases hr : c.is_regular_file <;> simp [createModifyStep, hr, h]

theorem createModifyStep_frame (fu : FileUtilities) (c : DirEntry) (s : Store)
    (p : ParsedPath) (h : c.is_regular_file = true → fu.fromStringABS c.path ≠ p) :
    (createModifyStep fu c s).1.find p = s.find p ∧
      eventsFor p (createModifyStep fu c s).2 = [] := by
  cases hr : c.is_regular_file
  · simp [createModifyStep, hr, eventsFor_nil]
  · have hne : fu.fromStringABS c.path ≠ p := h hr
    have hne2 : p ≠ fu.fromStringABS c.path := fun e => hne e.symm
    simp only [createModifyStep, hr, if_true]
    cases hf : s.find (fu.fromStringABS c.path) with
    | none =>
      simp [Store.find_assign_other _ _ _ _ hne2, eventsFor_cons, eventsFor_nil, Event.path, hne]
    | some stored =>
      by_cases ht : stored = fu.GetModifyTime c
      · simp [ht, eventsFor_nil]
      · simp [ht, Store.find_assign_other _ _ _ _ hne2, eventsFor_cons, eventsFor_nil,
          Event.path, hne]

theorem createModifyStep_hit (fu : FileUtilities) (c : DirEntry) (s : Store)
    (hr : c.is_regular_file = true) :
    (createModifyStep fu c s).1.find (fu.fromStringABS c.path) = some (fu.GetModifyTime c) ∧
      eventsFor (fu.fromStringABS c.path) (createModifyStep fu c s).2 =
        expectedEvents s (fu.fromStringABS c.path) (fu.GetModifyTime c) := by
  simp only [createModifyStep, hr, if_true, expectedEvents]
  cases hf : s.find (fu.fromStringABS c.path) with
  | none => simp [Store.find_assign_same, eventsFor_cons, eventsFor_nil, Event.path]
  | some stored =>
    by_cases ht : stored = fu.GetModifyTime c
    · simp [ht, eventsFor_nil, hf]
    · simp [ht, Store.find_assign_same, eventsFor_cons, eventsFor_nil, Event.path]

theorem createModifyPass_stable (fu : FileUtilities) (listing : List DirEntry) (s : Store)
    (p : ParsedPath) (t : TimeType) (hfind : s.find p = some t)
    (hall : ∀ c ∈ listing, c.is_regular_file = true → fu.fromStringABS c.path = p →
      fu.GetModifyTime c = t) :
    (createModifyPass fu listing s).1.find p = some t ∧
      eventsFor p (createModifyPass fu listing s).2 = [] := by
  induction listing generalizing s with
  | nil => simp [createModifyPass, hfind, eventsFor_nil]
  | cons c rest ih =>
    have hrest : ∀ c ∈ rest, c.is_regular_file = true → fu.fromStringABS c.path = p →
        fu.GetModifyTime c = t := fun c hc => hall c (List.mem_cons_of_mem _ hc)
    simp only [createModifyPass, eventsFor_append]
    by_cases hk : c.is_regular_file = true ∧ fu.fromStringABS c.path = p
    · have ht := hall c (List.mem_cons_self _ _) hk.1 hk.2
      have hs : createModifyStep fu c s = (s, []) :=
        createModifyStep_same fu c s (by rw [hk.2, ht]; exact hfind)
      rw [hs]
      simpa [eventsFor_nil] using ih s hfind hrest
    · have hf := createModifyStep_frame fu c s p (fun hr e => hk ⟨hr, e⟩)
      have := ih (createModifyStep fu c s).1 (by rw [hf.1]; exact hfind) hrest
      simp [hf.2, this]

theorem createModifyPass_frame (fu : FileUtilities) (listing : List DirEntry) (s : Store)
    (p : ParsedPath) (h : p ∉ listedKeys fu listing) :
    (createModifyPass fu listing s).1.find p = s.find p ∧
      eventsFor p (createModifyPass fu listing s).2 = [] := by
  induction listing generalizing s with
  | nil => simp [createModifyPass, eventsFor_nil]
  | cons c rest ih =>
    have hc : c.is_regular_file = true → fu.fromStringABS c.path ≠ p := by
      intro hr e
      apply h
      simp [listedKeys, hr, e]
    have hrest : p ∉ listedKeys fu rest := by
      intro hm
      apply h
      simp only [listedKeys, List.mem_map, List.mem_filter] at hm ⊢
      obtain ⟨a, ⟨ha, har⟩, hap⟩ := hm
      exact ⟨a, ⟨List.mem_cons_of_mem _ ha, har⟩, hap⟩
    have hf := createModifyStep_frame fu c s p hc
    have := ih (createModifyStep fu c s).1 hrest
    simp only [createModifyPass, eventsFor_append]
    simp [hf.2, this, hf.1]

theorem createModifyPass_hit (fu : FileUtilities) (listing : List DirEntry) (s : Store)
    (c : DirEntry) (hc : c ∈ listing) (hr : c.is_regular_file = true)
    (hone : ∀ d ∈ listing, d.is_regular_file = true →
      fu.fromStringABS d.path = fu.fromStringABS c.path →
      fu.GetModifyTime d = fu.GetModifyTime c) :
    (createModifyPass fu listing s).1.find (fu.fromStringABS c.path) =
        some (fu.GetModifyTime c) ∧
      eventsFor (fu.fromStringABS c.path) (createModifyPass fu listing s).2 =
        expectedEvents s (fu.fromStringABS c.path) (fu.GetModifyTime c) := by
  induction listing generalizing s with
  | nil => simp at hc
  | cons c0 rest ih =>
    have hrest : ∀ d ∈ rest, d.is_regular_file = true →
        fu.fromStringABS d.path = fu.fromStringABS c.path →
        fu.GetModifyTime d = fu.GetModifyTime c :=
      fun d hd => hone d (List.mem_cons_of_mem _ hd)
    simp only [createModifyPass, eventsFor_append]
    by_cases hk : c0.is_regular_file = true ∧
        fu.fromStringABS c0.path = fu.fromStringABS c.path
    · have ht := hone c0 (List.mem_cons_self _ _) hk.1 hk.2
      have hh := createModifyStep_hit fu c0 s hk.1
      rw [hk.2, ht] at hh
      have hst := createModifyPass_stable fu rest (createModifyStep fu c0 s).1
        (fu.fromStringABS c.path) (fu.GetModifyTime c) hh.1 hrest
      simp [hst.1, hst.2, hh.2]
    · have hne : c ≠ c0 := by
        intro e
        subst e
        exact hk ⟨hr, rfl⟩
      have hcr : c ∈ rest := by
        rcases List.mem_cons.1 hc with h | h
        · exact absurd h hne
        · exact h
      have hf := createModifyStep_frame fu c0 s (fu.fromStringABS c.path)
        (fun hr0 e => hk ⟨hr0, e⟩)
      have := ih (createModifyStep fu c0 s).1 hcr hrest
      have hexp : expectedEvents (createModifyStep fu c0 s).1 (fu.fromStringABS c.path)
          (fu.GetModifyTime c) =
          expectedEvents s (fu.fromStringABS c.path) (fu.GetModifyTime c) := by
        simp [expectedEvents, hf.1]
      simp [this.1, this.2, hf.2, hexp]

theorem createModifyPass_filter (fu : FileUtilities) (listing : List DirEntry) (s : Store) :
    createModifyPass fu listing s =
      createModifyPass fu (listing.filter (fun c => c.is_regular_file)) s := by
  induction listing generalizing s with
  | nil => rfl
  | cons c rest ih =>
    cases hr : c.is_regular_file
    · simp [createModifyPass, createModifyStep_not_regular fu c s hr, hr, ih]
    · simp [createModifyPass, hr, ih]

theorem createModifyPass_id (fu : FileUtilities) (listing : List DirEntry) (s : Store)
    (h : ∀ c ∈ listing, c.is_regular_file = true →
      s.find (fu.fromStringABS c.path) = some (fu.GetModifyTime c)) :
    createModifyPass fu listing s = (s, []) := by
  induction listing with
  | nil => rfl
  | cons c rest ih =>
    have hs : createModifyStep fu c s = (s, []) := by
      cases hr : c.is_regular_file
      · exact createModifyStep_not_regular fu c s hr
      · exact createModifyStep_same fu c s (h c (List.mem_cons_self _ _) hr)
    simp [createModifyPass, hs, ih (fun c hc => h c (List.mem_cons_of_mem _ hc))]

theorem createModifyStep_keys (fu : FileUtilities) (c : DirEntry) (s : Store)
    (k : ParsedPath) (hk : k ∈ (createModifyStep fu c s).1.keys) :
    k ∈ s.keys ∨ (c.is_regular_file = true ∧ k = fu.fromStringABS c.path) := by
  cases hr : c.is_regular_file
  · left; simpa [createModifyStep, hr] using hk
  · simp only [createModifyStep, hr, if_true] at hk
    cases hf : s.find (fu.fromStringABS c.path) with
    | none =>
      simp only [hf] at hk
      rcases (Store.mem_keys_assign _ _ _ _).1 hk with h | h
      · exact Or.inl h
      · exact Or.inr ⟨rfl, h⟩
    | some stored =>
      simp only [hf] at hk
      by_cases ht : stored = fu.GetModifyTime c
      · left; simpa [ht] using hk
      · simp only [ne_eq, ht, not_false_eq_true, if_true] at hk
        rcases (Store.mem_keys_assign _ _ _ _).1 hk with h | h
        · exact Or.inl h
        · exact Or.inr ⟨rfl, h⟩

theorem createModifyPass_keys (fu : FileUtilities) (listing : List DirEntry) (s : Store)
    (k : ParsedPath) (hk : k ∈ (createModifyPass fu listing s).1.keys) :
    k ∈ s.keys ∨ k ∈ listedKeys fu listing := by
  induction listing generalizing s with
  | nil => left; simpa [createModifyPass] using hk
  | cons c rest ih =>
    simp only [createModifyPass] at hk
    rcases ih _ hk with h | h
    · rcases createModifyStep_keys fu c s k h with h2 | h2
      · exact Or.inl h2
      · right
        simp [listedKeys, h2.1, h2.2]
    · right
      simp only [listedKeys, List.mem_map, List.mem_filter] at h ⊢
      obtain ⟨a, ⟨ha, har⟩, hap⟩ := h
      exact ⟨a, ⟨List.mem_cons_of_mem _ ha, har⟩, hap⟩

theorem createModifyPass_not_delete (fu : FileUtilities) (listing : List DirEntry) (s : Store) :
    ∀ e ∈ (createModifyPass fu listing s).2, e.isDelete = false := by
  induction listing generalizing s with
  | nil => simp [createModifyPass]
  | cons c rest ih =>
    intro e he
    simp only [createModifyPass, List.mem_append] at he
    rcases he with he | he
    · cases hr : c.is_regular_file
      · simp [createModifyStep, hr] at he
      · simp only [createModifyStep, hr, if_true] at he
        cases hf : s.find (fu.fromStringABS c.path) with
        | none =>
          simp only [hf, List.mem_singleton] at he
          rw [he]; rfl
        | some stored =>
          simp only [hf] at he
          by_cases ht : stored = fu.GetModifyTime c
          · simp [ht] at he
          · simp only [ne_eq, ht, not_false_eq_true, if_true, List.mem_singleton] at he
            rw [he]; rfl
    · exact ih _ e he

theorem deletePass_all_delete (fu : FileUtilities) (s : Store) :
    ∀ e ∈ (deletePass fu s).2, e.isDelete = true := by
  intro e he
  rw [deletePass_events] at he
  simp only [List.mem_map] at he
  obtain ⟨kv, _, h⟩ := he
  rw [← h]; rfl

/-! ## Claim theorems for one poll cycle -/

/-- C1. Create/modify pass over a listing, started on store `s` (the store as
the delete pass left it). For a regular file `c` of the listing whose path is
listed with one timestamp: (i) path absent from `s`: afterwards the store holds
the listed timestamp and the callbacks invoked with the path are exactly one
`onCreate`; (ii) path present with another timestamp: the stored timestamp is
replaced by the listed one and the callbacks with the path are exactly one
`onModify`; (iii) path present with the listed timestamp: no callback with the
path, and the stored timestamp stays. Entries that are not regular files
change nothing (the pass equals the pass over the regular files alone), and a
path that no regular file of the listing has gets no callback and keeps its
store entry. -/
theorem createModifyPass_spec (fu : FileUtilities) (listing : List DirEntry) (s : Store) :
    (∀ c ∈ listing, c.is_regular_file = true →
      (∀ d ∈ listing, d.is_regular_file = true →
        fu.fromStringABS d.path = fu.fromStringABS c.path →
        fu.GetModifyTime d = fu.GetModifyTime c) →
      (s.find (fu.fromStringABS c.path) = none →
        (createModifyPass fu listing s).1.find (fu.fromStringABS c.path) =
            some (fu.GetModifyTime c) ∧
          eventsFor (fu.fromStringABS c.path) (createModifyPass fu listing s).2 =
            [Event.onCreate (fu.fromStringABS c.path)]) ∧
      (∀ stored, s.find (fu.fromStringABS c.path) = some stored →
        stored ≠ fu.GetModifyTime c →
        (createModifyPass fu listing s).1.find (fu.fromStringABS c.path) =
            some (fu.GetModifyTime c) ∧
          eventsFor (fu.fromStringABS c.path) (createModifyPass fu listing s).2 =
            [Event.onModify (fu.fromStringABS c.path)]) ∧
      (s.find (fu.fromStringABS c.path) = some (fu.GetModifyTime c) →
        (createModifyPass fu listing s).1.find (fu.fromStringABS c.path) =
            some (fu.GetModifyTime c) ∧
          eventsFor (fu.fromStringABS c.path) (createModifyPass fu listing s).2 = [])) ∧
    (∀ c, c.is_regular_file = false → ∀ s0, createModifyStep fu c s0 = (s0, [])) ∧
    createModifyPass fu listing s =
      createModifyPass fu (listing.filter (fun c => c.is_regular_file)) s ∧
    (∀ p, p ∉ listedKeys fu listing →
      (createModifyPass fu listing s).1.find p = s.find p ∧
        eventsFor p (createModifyPass fu listing s).2 = []) := by
  refine ⟨?_, fun c hr s0 => createModifyStep_not_regular fu c s0 hr,
    createModifyPass_filter fu listing s, fun p hp => createModifyPass_frame fu listing s p hp⟩
  intro c hc hr hone
  have hh := createModifyPass_hit fu listing s c hc hr hone
  refine ⟨?_, ?_, ?_⟩
  · intro hf
    refine ⟨hh.1, ?_⟩
    rw [hh.2]; simp [expectedEvents, hf]
  · intro stored hf hne
    refine ⟨hh.1, ?_⟩
    rw [hh.2]; simp [expectedEvents, hf, hne]
  · intro hf
    refine ⟨hh.1, ?_⟩
    rw [hh.2]; simp [expectedEvents, hf]

/-- Witness of C1 on the sample: `D/a.txt` is absent from the store and is
created with timestamp 5. -/
theorem createModifyPass_spec_witness :
    (createModifyPass sampleFU (sampleFU.DirContents ⟨"D"⟩) sampleStore).1.find ⟨"D/a.txt"⟩ =
        some 5 ∧
      eventsFor ⟨"D/a.txt"⟩
          (createModifyPass sampleFU (sampleFU.DirContents ⟨"D"⟩) sampleStore).2 =
        [Event.onCreate ⟨"D/a.txt"⟩] :=
  ((createModifyPass_spec sampleFU (sampleFU.DirContents ⟨"D"⟩) sampleStore).1
    ⟨"D/a.txt", true, false⟩ (by decide) rfl (by decide)).1 (by decide)

/-- Witness of C2 on the sample: `D/old.txt` is stored and does not exist, so
it gets exactly one `onDelete`, and only `D/b.txt` stays in the store. -/
theorem deletePass_spec_witness :
    eventsFor ⟨"D/old.txt"⟩ (deletePass sampleFU sampleStore).2 =
        [Event.onDelete ⟨"D/old.txt"⟩] ∧
      (deletePass sampleFU sampleStore).1 = [(⟨"D/b.txt"⟩, 6)] :=
  ⟨((deletePass_spec sampleFU sampleStore (by decide)).1 ⟨"D/old.txt"⟩).trans (by decide),
   (deletePass_spec sampleFU sampleStore (by decide)).2.1.trans (by decide)⟩

/-- C3. Ordering within one cycle: the callbacks of a poll cycle are the
callbacks of the delete pass, all of them `onDelete`, followed by the callbacks
of the create/modify pass, none of them `onDelete`; so in the sequence no
`onDelete` stands after an `onCreate` or `onModify`. -/
theorem pollCycle_order (fu : FileUtilities) (toWatch : ParsedPath) (s : Store) :
    (pollCycle fu toWatch s).2 =
        (deletePass fu s).2 ++
          (createModifyPass fu (fu.DirContents toWatch) (deletePass fu s).1).2 ∧
      (∀ e ∈ (deletePass fu s).2, e.isDelete = true) ∧
      (∀ e ∈ (createModifyPass fu (fu.DirContents toWatch) (deletePass fu s).1).2,
        e.isDelete = false) ∧
      List.Pairwise (fun a b => ¬ (a.isDelete = false ∧ b.isDelete = true))
        (pollCycle fu toWatch s).2 := by
  have hd := deletePass_all_delete fu s
  have hc := createModifyPass_not_delete fu (fu.DirContents toWatch) (deletePass fu s).1
  refine ⟨rfl, hd, hc, ?_⟩
  show List.Pairwise _ ((deletePass fu s).2 ++
    (createModifyPass fu (fu.DirContents toWatch) (deletePass fu s).1).2)
  rw [List.pairwise_append]
  refine ⟨?_, ?_, ?_⟩
  · refine List.Pairwise.imp_of_mem ?_ (List.pairwise_of_forall (fun _ _ => trivial))
    intro a b ha _ _
    simp [hd a ha]
  · refine List.Pairwise.imp_of_mem ?_ (List.pairwise_of_forall (fun _ _ => trivial))
    intro a b _ hb _
    simp [hc b hb]
  · intro a ha b _
    simp [hd a ha]

theorem pollCycle_quiet (fu : FileUtilities) (toWatch : ParsedPath) (s : Store)
    (hk : ∀ k ∈ s.keys, fu.FileExists k = true)
    (hl : ∀ c ∈ fu.DirContents toWatch, c.is_regular_file = true →
      s.find (fu.fromStringABS c.path) = some (fu.GetModifyTime c)) :
    pollCycle fu toWatch s = (s, []) := by
  simp [pollCycle, deletePass_id fu s hk, createModifyPass_id fu _ s hl]

/-- C5. Idempotence of the poll cycle: when the listing of the watched
directory has pairwise distinct paths and every listed regular file exists, a
second poll cycle against the same filesystem state invokes no callback and
leaves the store exactly as the first cycle left it, whatever the initial
store. -/
theorem pollCycle_idempotent (fu : FileUtilities) (toWatch : ParsedPath) (s : Store)
    (hd : ((fu.DirContents toWatch).map (fun c => fu.fromStringABS c.path)).Nodup)
    (he : ∀ c ∈ fu.DirContents toWatch, c.is_regular_file = true →
      fu.FileExists (fu.fromStringABS c.path) = true) :
    pollCycle fu toWatch (pollCycle fu toWatch s).1 = ((pollCycle fu toWatch s).1, []) := by
  apply pollCycle_quiet
  · intro k hk
    rcases createModifyPass_keys fu _ _ k hk with h | h
    · exact deletePass_keys_exist fu s k h
    · simp only [listedKeys, List.mem_map, List.mem_filter] at h
      obtain ⟨c, ⟨hc, hr⟩, hck⟩ := h
      rw [← hck]; exact he c hc hr
  · intro c hc hr
    refine (createModifyPass_hit fu _ (deletePass fu s).1 c hc hr ?_).1
    intro d hdm _ hkey
    have : d = c := List.inj_on_of_nodup_map hd hdm hc hkey
    rw [this]

/-- Witness of C5 on the sample directory `D`. -/
theorem pollCycle_idempotent_witness :
    pollCycle sampleFU ⟨"D"⟩ (pollCycle sampleFU ⟨"D"⟩ sampleStore).1 =
      ((pollCycle sampleFU ⟨"D"⟩ sampleStore).1, []) :=
  pollCycle_idempotent sampleFU ⟨"D"⟩ sampleStore (by decide) (by decide)

/-! ## The snapshot and `start` -/

theorem Extends.trans {a b c : Watcher} (h1 : Extends a b) (h2 : Extends b c) :
    Extends a c :=
  ⟨fun k hk => h2.1 k (h1.1 k hk), fun d hd => h2.2 d (h1.2 d hd)⟩

theorem System.moveTo_admittedAt (sys : System) (i j : Nat) (pc : PollerPC) :
    (sys.moveTo i pc j).admittedAt = (sys.pollers j).admittedAt := by
  by_cases h : j = i
  · subst h; simp [System.moveTo]
  · simp [System.moveTo, Function.update_noteq h]

theorem System.moveTo_pc (sys : System) (i j : Nat) (pc : PollerPC) :
    (sys.moveTo i pc j).pc = if j = i then pc else (sys.pollers j).pc := by
  by_cases h : j = i
  · subst h; simp [System.moveTo]
  · simp [System.moveTo, Function.update_noteq h, h]

theorem System.Inv.record {sys : System} (h : sys.Inv) (i : Nat) (evs : List Event)
    (hpc : (sys.pollers i).pc = PollerPC.deleting ∨ (sys.pollers i).pc = PollerPC.creating) :
    ∀ e ∈ sys.record i evs, e.running = false →
      ∃ t tc, e.admittedAt = some t ∧ sys.clearedAt = some tc ∧ t < tc ∧ tc < e.time ∧
        e.poller = i ∧ (sys.pollers i).admittedAt = some t := by
  intro e he hrun
  simp only [System.record, List.mem_map] at he
  obtain ⟨ev, _, rfl⟩ := he
  simp only at hrun
  have hadm : (sys.pollers i).admittedAt ≠ none := h.inCycle i (Or.inr hpc)
  obtain ⟨t, ht⟩ := Option.ne_none_iff_exists'.1 hadm
  have hcl : sys.clearedAt ≠ none := by
    intro hn
    have := h.flag hn
    rw [hrun] at this
    cases this
  obtain ⟨tc, htc⟩ := Option.ne_none_iff_exists'.1 hcl
  exact ⟨t, tc, ht, htc, (h.admitted i t ht).2 tc htc, (h.cleared tc htc).2, rfl, ht⟩

theorem System.Inv.pollerStep {sys : System} (h : sys.Inv) (i : Nat) :
    (sys.step (Label.poller i)).Inv := by
  cases hpc : (sys.pollers i).pc with
  | testFlag =>
    cases hrun : sys.w.m_running with
    | false =>
      simp only [System.step, System.pollerStep, hpc, hrun, Bool.false_eq_true, ↓reduceIte]
      exact {
        flag := h.flag
        cleared := fun tc htc => ⟨(h.cleared tc htc).1, Nat.lt_succ_of_lt (h.cleared tc htc).2⟩
        stopPast := h.stopPast
        admitted := fun j t ht => by
          simp only [System.moveTo_admittedAt] at ht
          exact ⟨Nat.lt_succ_of_lt (h.admitted j t ht).1, (h.admitted j t ht).2⟩
        inCycle := fun j hj => by
          simp only [System.moveTo_admittedAt, System.moveTo_pc] at hj ⊢
          by_cases hji : j = i
          · simp [hji] at hj
          · simp only [hji, if_false] at hj
            exact h.inCycle j hj
        logged := fun e he hr => by
          simp only [System.moveTo_admittedAt]
          exact h.logged e he hr }
    | true =>
      have hnc : sys.clearedAt = none := by
        cases hc : sys.clearedAt with
        | none => rfl
        | some tc =>
          have := (h.cleared tc hc).1
          rw [hrun] at this
          cases this
      simp only [System.step, System.pollerStep, hpc, hrun, ↓reduceIte]
      exact {
        flag := h.flag
        cleared := fun tc htc => by
          simp only at htc
          rw [hnc] at htc; cases htc
        stopPast := h.stopPast
        admitted := fun j t ht => by
          simp only at ht ⊢
          by_cases hji : j = i
          · subst hji
            simp only [Function.update_same, Option.some.injEq] at ht
            refine ⟨by omega, fun tc htc => ?_⟩
            rw [hnc] at htc; cases htc
          · simp only [Function.update_noteq hji] at ht
            exact ⟨Nat.lt_succ_of_lt (h.admitted j t ht).1, (h.admitted j t ht).2⟩
        inCycle := fun j hj => by
          simp only at hj ⊢
          by_cases hji : j = i
          · subst hji
            simp
          · simp only [Function.update_noteq hji] at hj ⊢
            exact h.inCycle j hj
        logged := fun e he hr => by
          obtain ⟨t, tc, _, h2, _⟩ := h.logged e he hr
          rw [hnc] at h2; cases h2 }
  | sleeping =>
    simp only [System.step, System.pollerStep, hpc]
    exact {
      flag := h.flag
      cleared := fun tc htc => ⟨(h.cleared tc htc).1, Nat.lt_succ_of_lt (h.cleared tc htc).2⟩
      stopPast := h.stopPast
      admitted := fun j t ht => by
        simp only [System.moveTo_admittedAt] at ht
        exact ⟨Nat.lt_succ_of_lt (h.admitted j t ht).1, (h.admitted j t ht).2⟩
      inCycle := fun j hj => by
        simp only [System.moveTo_admittedAt, System.moveTo_pc] at hj ⊢
        by_cases hji : j = i
        · subst hji
          exact h.inCycle j (Or.inl hpc)
        · simp only [hji, if_false] at hj
          exact h.inCycle j hj
      logged := fun e he hr => by
        simp only [System.moveTo_admittedAt]
        exact h.logged e he hr }
  | deleting =>
    simp only [System.step, System.pollerStep, hpc]
    exact {
      flag := h.flag
      cleared := fun tc htc => ⟨(h.cleared tc htc).1, Nat.lt_succ_of_lt (h.cleared tc htc).2⟩
      stopPast := h.stopPast
      admitted := fun j t ht => by
        simp only [System.moveTo_admittedAt] at ht
        exact ⟨Nat.lt_succ_of_lt (h.admitted j t ht).1, (h.admitted j t ht).2⟩
      inCycle := fun j hj => by
        simp only [System.moveTo_admittedAt, System.moveTo_pc] at hj ⊢
        by_cases hji : j = i
        · subst hji
          exact h.inCycle j (Or.inr (Or.inl hpc))
        · simp only [hji, if_false] at hj
          exact h.inCycle j hj
      logged := fun e he hr => by
        simp only [System.moveTo_admittedAt]
        rcases List.mem_append.1 he with h1 | h1
        · exact h.logged e h1 hr
        · obtain ⟨t, tc, h2, h3, h4, h5, h6, h7⟩ := h.record i _ (Or.inl hpc) e h1 hr
          exact ⟨t, tc, h2, h3, h4, h5, by rw [h6]; exact h7⟩ }
  | creating =>
    simp only [System.step, System.pollerStep, hpc]
    exact {
      flag := h.flag
      cleared := fun tc htc => ⟨(h.cleared tc htc).1, Nat.lt_succ_of_lt (h.cleared tc htc).2⟩
      stopPast := h.stopPast
      admitted := fun j t ht => by
        simp only [System.moveTo_admittedAt] at ht
        exact ⟨Nat.lt_succ_of_lt (h.admitted j t ht).1, (h.admitted j t ht).2⟩
      inCycle := fun j hj => by
        simp only [System.moveTo_admittedAt, System.moveTo_pc] at hj ⊢
        by_cases hji : j = i
        · simp [hji] at hj
        · simp only [hji, if_false] at hj
          exact h.inCycle j hj
      logged := fun e he hr => by
        simp only [System.moveTo_admittedAt]
        rcases List.mem_append.1 he with h1 | h1
        · exact h.logged e h1 hr
        · obtain ⟨t, tc, h2, h3, h4, h5, h6, h7⟩ := h.record i _ (Or.inr hpc) e h1 hr
          exact ⟨t, tc, h2, h3, h4, h5, by rw [h6]; exact h7⟩ }
  | exited =>
    simp only [System.step, System.pollerStep, hpc]
    exact {
      flag := h.flag
      cleared := fun tc htc => ⟨(h.cleared tc htc).1, Nat.lt_succ_of_lt (h.cleared tc htc).2⟩
      stopPast := h.stopPast
      admitted := fun j t ht =>
        ⟨Nat.lt_succ_of_lt (h.admitted j t ht).1, (h.admitted j t ht).2⟩
      inCycle := h.inCycle
      logged := h.logged }

theorem System.Inv.tick {sys next : System} (h : sys.Inv)
    (hrun : next.w.m_running = sys.w.m_running) (hcl : next.clearedAt = sys.clearedAt)
    (hstop : next.stopPC.beforeClear = true → sys.stopPC.beforeClear = true)
    (hpol : next.pollers = sys.pollers) (hlog : next.log = sys.log)
    (hnow : next.now = sys.now + 1) : next.Inv where
  flag := fun hc => by rw [hrun]; exact h.flag (by rw [← hcl]; exact hc)
  cleared := fun tc htc => by
    rw [hcl] at htc
    rw [hrun, hnow]
    exact ⟨(h.cleared tc htc).1, Nat.lt_succ_of_lt (h.cleared tc htc).2⟩
  stopPast := fun hb => by rw [hcl]; exact h.stopPast (hstop hb)
  admitted := fun j t ht => by
    rw [hpol] at ht
    rw [hnow, hcl]
    exact ⟨Nat.lt_succ_of_lt (h.admitted j t ht).1, (h.admitted j t ht).2⟩
  inCycle := fun j hj => by
    rw [hpol] at hj ⊢
    exact h.inCycle j hj
  logged := fun e he hr => by
    rw [hlog] at he
    rw [hcl, hpol]
    exact h.logged e he hr

theorem System.Inv.stopStep {sys : System} (h : sys.Inv) : (sys.step Label.stop).Inv := by
  cases hpc : sys.stopPC with
  | idle =>
    refine h.tick ?_ ?_ ?_ ?_ ?_ ?_ <;> simp [System.step, System.stopStep, hpc]
    simp [StopPC.beforeClear]
  | read cd =>
    refine h.tick ?_ ?_ ?_ ?_ ?_ ?_ <;>
      simp [System.step, System.stopStep, hpc, Watcher.setDelay, StopPC.beforeClear]
  | delaySet cd =>
    have hnc : sys.clearedAt = none := h.stopPast (by rw [hpc]; rfl)
    simp only [System.step, System.stopStep, hpc]
    exact {
      flag := fun hc => by cases hc
      cleared := fun tc htc => by
        simp only [Option.some.injEq] at htc
        subst htc
        exact ⟨rfl, Nat.lt_succ_self _⟩
      stopPast := fun hb => by cases hb
      admitted := fun j t ht => by
        refine ⟨Nat.lt_succ_of_lt (h.admitted j t ht).1, fun tc htc => ?_⟩
        simp only [Option.some.injEq] at htc
        subst htc
        exact (h.admitted j t ht).1
      inCycle := h.inCycle
      logged := fun e he hr => by
        obtain ⟨t, tc, _, h2, _⟩ := h.logged e he hr
        rw [hnc] at h2; cases h2 }
  | sleeping cd =>
    refine h.tick ?_ ?_ ?_ ?_ ?_ ?_ <;>
      simp [System.step, System.stopStep, hpc, StopPC.beforeClear]
  | woken =>
    refine h.tick ?_ ?_ ?_ ?_ ?_ ?_ <;>
      simp [System.step, System.stopStep, hpc, StopPC.beforeClear]
  | returned =>
    refine h.tick ?_ ?_ ?_ ?_ ?_ ?_ <;>
      simp [System.step, System.stopStep, hpc, StopPC.beforeClear]

theorem System.Inv.step {sys : System} (h : sys.Inv) (l : Label) : (sys.step l).Inv := by
  cases l with
  | poller i => exact h.pollerStep i
  | stop => exact h.stopStep
  | env fu => exact h.tick rfl rfl (fun hb => hb) rfl rfl rfl

/-- C6, at the failing input. `start` on the existing empty directory `E`
(SHALLOW) spawns no thread, so after `E/a.txt` is created and every spawned
Poller has run a cycle, `onCreate` was never invoked. On the sample directory
`D`, which has entries at start, the same scenario invokes `onCreate` for the
new file exactly once although two threads watch `D`. -/
theorem start_on_empty_directory_spawns_no_poller :
    startThenPoll 1 emptyDirFU createdFU Depth.SHALLOW ⟨"E"⟩ true = some ([], [], []) ∧
    startThenPoll 2 sampleFU sampleCreatedFU Depth.SHALLOW ⟨"D"⟩ true =
      some ([⟨"D/a.txt"⟩, ⟨"D/b.txt"⟩], [⟨"D"⟩, ⟨"D"⟩], [Event.onCreate ⟨"D/new.txt"⟩]) := by
  decide

/-- C7, at the failing input. With depth SHALLOW, `start` on `R` still makes
the recursive call for the subdirectory `R/S`: the file `R/S/g` inside the
subdirectory is snapshotted and a thread watching `R/S` is spawned. -/
theorem shallow_start_descends_into_subdirectory :
    startThenPoll 2 nestedFU nestedFU Depth.SHALLOW ⟨"R"⟩ true =
      some ([⟨"R/f"⟩, ⟨"R/S/g"⟩], [⟨"R"⟩, ⟨"R/S"⟩], []) := by
  decide

/-- C9, at the failing input. `start` never reads `alwaysCreateBaseDirectory`:
with the flag set it does exactly what it does with the flag clear, and so
does the constructor. For the missing root this is an empty snapshot and no
thread; no collaborator that could create the directory is called. -/
theorem start_ignores_alwaysCreateBaseDirectory :
    (∀ fuel fu w path, Watcher.start fuel fu w path true = Watcher.start fuel fu w path false) ∧
    (∀ fuel fu basePath depth delay,
      Watcher.construct fuel fu basePath depth true true delay =
        Watcher.construct fuel fu basePath depth false true delay) ∧
    missingRootFU.FileExists ⟨"missing"⟩ = false ∧
    startThenPoll 1 missingRootFU missingRootFU Depth.RECURSIVE ⟨"missing"⟩ true =
      some ([], [], []) := by
  refine ⟨?_, ?_, rfl, by decide⟩
  · intro fuel fu w path
    cases fuel <;> rfl
  · intro fuel fu basePath depth delay
    cases fuel <;> rfl

/-- C10, at the failing input. `stop()` sets the delay to 1 ms and never puts
the configured delay back: after `setDelay(1000)` and `stop()`, `getDelay()`
returns 1, and so it does for every configured delay. -/
theorem stop_leaves_delay_at_one :
    (((freshWatcher ⟨"D"⟩ Depth.SHALLOW).setDelay 1000).stop).getDelay = 1 ∧
    (∀ (w : Watcher) (d : Nat), ((w.setDelay d).stop).getDelay = 1) :=
  ⟨rfl, fun _ _ => rfl⟩

/-! ## `m_times` stays a map -/

theorem deletePass_nodup (fu : FileUtilities) (s : Store) (hs : s.keys.Nodup) :
    (deletePass fu s).1.keys.Nodup := by
  rw [deletePass_store]
  exact List.Nodup.sublist (List.Sublist.map _ (List.filter_sublist _)) hs

theorem createModifyStep_nodup (fu : FileUtilities) (c : DirEntry) (s : Store)
    (hs : s.keys.Nodup) : (createModifyStep fu c s).1.keys.Nodup := by
  cases hr : c.is_regular_file
  · simpa [createModifyStep, hr] using hs
  · simp only [createModifyStep, hr, if_true]
    cases hf : s.find (fu.fromStringABS c.path) with
    | none => exact Store.nodup_keys_assign _ _ _ hs
    | some stored =>
      by_cases ht : stored = fu.GetModifyTime c
      · simpa [ht] using hs
      · simpa [ht] using Store.nodup_keys_assign _ _ _ hs

theorem createModifyPass_nodup (fu : FileUtilities) (listing : List DirEntry) (s : Store)
    (hs : s.keys.Nodup) : (createModifyPass fu listing s).1.keys.Nodup := by
  induction listing generalizing s with
  | nil => exact hs
  | cons c rest ih => exact ih _ (createModifyStep_nodup fu c s hs)

theorem pollCycle_nodup (fu : FileUtilities) (toWatch : ParsedPath) (s : Store)
    (hs : s.keys.Nodup) : (pollCycle fu toWatch s).1.keys.Nodup :=
  createModifyPass_nodup fu _ _ (deletePass_nodup fu s hs)

theorem snapshot_nodup (fu : FileUtilities) (l : List DirEntry) (s : Store)
    (hs : s.keys.Nodup) : (snapshot fu l s).keys.Nodup := by
  induction l generalizing s with
  | nil => exact hs
  | cons c rest ih =>
    cases hr : c.is_regular_file
    · simpa [snapshot, hr] using ih s hs
    · simp only [snapshot, hr, if_true]
      exact ih _ (Store.nodup_keys_assign _ _ _ hs)

theorem spawnLoop_nodup (fu : FileUtilities) (recurse : Watcher → ParsedPath → Option Watcher)
    (path : ParsedPath)
    (hrecurse : ∀ w sub w1, recurse w sub = some w1 → w.m_times.keys.Nodup →
      w1.m_times.keys.Nodup)
    (rest : List DirEntry) (w w1 : Watcher) (h : spawnLoop recurse fu path rest w = some w1)
    (hs : w.m_times.keys.Nodup) : w1.m_times.keys.Nodup := by
  induction rest generalizing w with
  | nil =>
    simp only [spawnLoop, Option.some.injEq] at h
    rw [← h]; exact hs
  | cons c rest ih =>
    cases hdir : c.is_directory
    · simp only [spawnLoop, hdir] at h
      exact ih _ h hs
    · simp only [spawnLoop, hdir, if_true] at h
      cases hr : recurse w (fu.fromStringABS c.path) with
      | none => simp [hr] at h
      | some w0 =>
        simp only [hr] at h
        exact ih w0 h (hrecurse w _ w0 hr hs)

theorem start_nodup (fu : FileUtilities) (n : Nat) :
    ∀ (w : Watcher) (path : ParsedPath) (flag : Bool) (w1 : Watcher),
      Watcher.start n fu w path flag = some w1 → w.m_times.keys.Nodup →
      w1.m_times.keys.Nodup := by
  induction n with
  | zero => intro w path flag w1 h; simp [Watcher.start] at h
  | succ n ih =>
    intro w path flag w1 h hs
    simp only [Watcher.start] at h
    exact spawnLoop_nodup fu _ path (fun w0 sub w2 h0 hs0 => ih w0 sub false w2 h0 hs0)
      _ _ w1 h (snapshot_nodup fu _ _ hs)

/-- Witness of C3 on the sample: the vanished file is reported first. -/
theorem pollCycle_order_witness :
    (pollCycle sampleFU ⟨"D"⟩ sampleStore).2 =
      [Event.onDelete ⟨"D/old.txt"⟩, Event.onCreate ⟨"D/a.txt"⟩, Event.onModify ⟨"D/b.txt"⟩] :=
  (pollCycle_order sampleFU ⟨"D"⟩ sampleStore).1.trans (by decide)

end CPPWatcher
